import Mathlib

/-
  Verification of the aretext editor core against its specification.

  The development shallowly embeds the Go sources:
    - syntax2/parser/tokentree.go   (persistent token tree)
    - internal/pkg/exec/locator.go  (cursor locator algebra)
    - internal/pkg/syntax/parser/regexp.go (regular-expression parser)
    - input/mode.go                 (VM-backed input modes)
  Machine integers (uint64) are modelled as Nat: the Go code never
  subtracts below zero on the paths exercised here, and all positions are
  small non-negative offsets.  A Go panic is modelled as an Option/Except
  failure value.
-/

namespace Aretext

/-- Token roles are opaque identifiers (parser.TokenRole in the source). -/
abbrev TokenRole := Nat

/-- Token from syntax2/parser: (StartPos, EndPos, LookaheadPos, Role). -/
structure Token where
  startPos : Nat
  endPos : Nat
  lookaheadPos : Nat
  role : TokenRole
deriving Repr, DecidableEq

/-- TokenTree from syntax2/parser/tokentree.go.  The `nil` constructor models
the nil *TokenTree pointer; `node` carries the struct fields. -/
inductive TokenTree where
  | nil : TokenTree
  | node (token : Token) (minStartPos maxEndPos : Nat)
      (leftChild rightChild : TokenTree) : TokenTree
deriving Repr, DecidableEq

namespace TokenTree

/-- validateNewToken: true when the token passes both checks (the Go method
panics otherwise). -/
def validateNewToken (token : Token) : Bool :=
  !(token.startPos ≥ token.endPos) && !(token.endPos > token.lookaheadPos)

/-- withLeftChild from tokentree.go.  In the source it is only invoked with a
non-nil receiver and a non-nil child (the result of Insert); the nil fallbacks
below are never reached on those paths. -/
def withLeftChild : TokenTree → TokenTree → TokenTree
  | node token minStartPos maxEndPos _ rightChild, child =>
    let childMin := match child with
      | node _ m _ _ _ => m
      | nil => 0
    node token (if childMin < minStartPos then childMin else minStartPos)
      maxEndPos child rightChild
  | nil, _ => nil

/-- withRightChild from tokentree.go. -/
def withRightChild : TokenTree → TokenTree → TokenTree
  | node token minStartPos maxEndPos leftChild _, child =>
    let childMax := match child with
      | node _ _ m _ _ => m
      | nil => 0
    node token minStartPos (if childMax > maxEndPos then childMax else maxEndPos)
      leftChild child
  | nil, _ => nil

/-- Insert from tokentree.go.  `none` models the panic on a zero-length token,
a lookahead below the end position, or an overlap with an existing token. -/
def Insert : TokenTree → Token → Option TokenTree
  | t, token =>
    if token.startPos ≥ token.endPos then none
    else if token.endPos > token.lookaheadPos then none
    else
      match t with
      | nil => some (node token token.startPos token.endPos nil nil)
      | node ntok mn mx l r =>
        if token.endPos ≤ ntok.startPos then
          (Insert l token).map (node ntok mn mx l r).withLeftChild
        else if token.startPos ≥ ntok.endPos then
          (Insert r token).map (node ntok mn mx l r).withRightChild
        else none

/-- Join from tokentree.go.  `none` models the panic when the spans of the two
trees overlap. -/
def Join : TokenTree → TokenTree → Option TokenTree
  | nil, nil => some nil
  | nil, other => some other
  | t, nil => some t
  | node ttok tmn tmx tl tr, node otok omn omx ol orr =>
    if omx ≤ tmn then
      (Join tl (node otok omn omx ol orr)).map fun c => node ttok omn tmx c tr
    else if omn ≥ tmx then
      (Join tr (node otok omn omx ol orr)).map fun c => node ttok tmn omx tl c
    else none

/-- The in-order token list of a tree (the mathematical reading of the tree;
used to state the traversal properties). -/
def toList : TokenTree → List Token
  | nil => []
  | node ntok _ _ l r => toList l ++ ntok :: toList r

/-- IterFromPosition's descent loop.  The Go code keeps the stack bottom-first
with the top at the end of the slice; we keep the same stack top-first (the
head is the top), so a Go `append` is a `cons` here. -/
def iterLoop : TokenTree → Nat → List TokenTree → List TokenTree
  | nil, _, stack => stack
  | node ntok mn mx l r, pos, stack =>
    if pos < ntok.startPos then iterLoop l pos (node ntok mn mx l r :: stack)
    else if pos ≥ ntok.endPos then iterLoop r pos stack
    else node ntok mn mx l r :: stack

/-- IterFromPosition from tokentree.go: the iterator is its stack of nodes
still to visit (top-first). -/
def IterFromPosition (t : TokenTree) (pos : Nat) : List TokenTree :=
  iterLoop t pos []

end TokenTree

namespace TokenIter

open TokenTree

/-- TokenIter.Get: the current token, read from the top of the stack.  The
stack built by IterFromPosition and Advance holds only non-nil nodes; the nil
branch is unreachable there. -/
def Get : List TokenTree → Option Token
  | stack =>
    match stack.head? with
    | some (node ntok _ _ _ _) => some ntok
    | _ => none

/-- The push loop of TokenIter.Advance: pushes a node, then descends to its
left child, so the leftmost descendant ends on top. -/
def pushLeftSpine : TokenTree → List TokenTree → List TokenTree
  | nil, stack => stack
  | node ntok mn mx l r, stack => pushLeftSpine l (node ntok mn mx l r :: stack)

/-- TokenIter.Advance: pop the current node and push the left spine of its
right subtree.  A no-op on an empty stack. -/
def Advance : List TokenTree → List TokenTree
  | [] => []
  | t :: rest =>
    match t with
    | nil => rest
    | node _ _ _ _ r => pushLeftSpine r rest

/-- The tokens still to be yielded by an iterator stack: for each stacked node
(top first), its own token followed by the in-order tokens of its right
subtree. -/
def remTokens : TokenTree → List Token
  | nil => []
  | node ntok _ _ _ r => ntok :: r.toList

/-- All tokens an iterator stack will yield, in order. -/
def stackTokens (stack : List TokenTree) : List Token :=
  stack.flatMap remTokens

/-- The loop body of TokenIter.Collect, with explicit fuel (the Go loop runs
until Get fails; `stackTokens` bounds the number of iterations). -/
def collectFuel : Nat → List TokenTree → List Token
  | 0, _ => []
  | fuel + 1, stack =>
    match Get stack with
    | none => []
    | some tok => tok :: collectFuel fuel (Advance stack)

/-- TokenIter.Collect from tokentree.go. -/
def Collect (stack : List TokenTree) : List Token :=
  collectFuel (stackTokens stack).length stack

end TokenIter

namespace TokenTree

/-- Every token of the (sub)tree satisfies `p`. -/
def allT (p : Token → Prop) : TokenTree → Prop
  | nil => True
  | node ntok _ _ l r => p ntok ∧ allT p l ∧ allT p r

/-- The token-tree invariant of the data model: each node's token has positive
length, left-subtree tokens end at or before it starts, and right-subtree
tokens start at or after it ends. -/
def wf : TokenTree → Prop
  | nil => True
  | node ntok _ _ l r =>
    ntok.startPos < ntok.endPos ∧
    allT (fun a => a.endPos ≤ ntok.startPos) l ∧
    allT (fun a => ntok.endPos ≤ a.startPos) r ∧
    wf l ∧ wf r

/-- Inserting a whole list of tokens in order, starting from a given tree;
`none` when some insertion panics. -/
def insertList : TokenTree → List Token → Option TokenTree
  | t, [] => some t
  | t, tok :: rest =>
    match t.Insert tok with
    | none => none
    | some t2 => insertList t2 rest

theorem allT_iff (p : Token → Prop) :
    ∀ t : TokenTree, allT p t ↔ ∀ a ∈ t.toList, p a := by
  intro t
  induction t with
  | nil => simp [allT, toList]
  | node ntok mn mx l r ihl ihr =>
    simp only [allT, toList, List.mem_append, List.mem_cons, ihl, ihr]
    constructor
    · rintro ⟨hp, hl, hr⟩ a (ha | rfl | ha)
      · exact hl a ha
      · exact hp
      · exact hr a ha
    · intro h
      exact ⟨h ntok (Or.inr (Or.inl rfl)),
        fun a ha => h a (Or.inl ha),
        fun a ha => h a (Or.inr (Or.inr ha))⟩

theorem wf_pairwise : ∀ t : TokenTree, wf t →
    t.toList.Pairwise (fun a b => a.endPos ≤ b.startPos) := by
  intro t
  induction t with
  | nil => simp [wf, toList]
  | node ntok mn mx l r ihl ihr =>
    rintro ⟨hpos, hleft, hright, hwl, hwr⟩
    have hl := (allT_iff _ l).mp hleft
    have hr := (allT_iff _ r).mp hright
    simp only [toList, List.pairwise_append, List.pairwise_cons]
    refine ⟨ihl hwl, ⟨fun b hb => hr b hb, ihr hwr⟩,
      fun a ha b hb => ?_⟩
    rcases List.mem_cons.mp hb with rfl | hb
    · exact hl a ha
    · exact le_trans (hl a ha) (le_trans (le_of_lt hpos) (hr b hb))

theorem wf_mem_pos : ∀ t : TokenTree, wf t →
    ∀ a ∈ t.toList, a.startPos < a.endPos := by
  intro t
  induction t with
  | nil => simp [toList]
  | node ntok mn mx l r ihl ihr =>
    rintro ⟨hpos, _, _, hwl, hwr⟩ a ha
    simp only [toList, List.mem_append, List.mem_cons] at ha
    rcases ha with ha | rfl | ha
    · exact ihl hwl a ha
    · exact hpos
    · exact ihr hwr a ha

theorem withLeftChild_shape (ntok : Token) (mn mx : Nat) (l r c : TokenTree) :
    ∃ mn2, withLeftChild (node ntok mn mx l r) c = node ntok mn2 mx c r :=
  ⟨_, rfl⟩

theorem withRightChild_shape (ntok : Token) (mn mx : Nat) (l r c : TokenTree) :
    ∃ mx2, withRightChild (node ntok mn mx l r) c = node ntok mn mx2 l c :=
  ⟨_, rfl⟩

theorem insert_some_spec : ∀ (t : TokenTree) (tok : Token) (t2 : TokenTree),
    t.Insert tok = some t2 → wf t →
    wf t2 ∧ List.Perm t2.toList (tok :: t.toList) ∧
      ∀ p : Token → Prop, p tok → allT p t → allT p t2 := by
  intro t
  induction t with
  | nil =>
    intro tok t2 hins _
    simp only [Insert] at hins
    split at hins
    · exact absurd hins (by simp)
    split at hins
    · exact absurd hins (by simp)
    rename_i h1 h2
    have htok : tok.startPos < tok.endPos := lt_of_not_le h1
    cases hins
    refine ⟨⟨htok, trivial, trivial, trivial, trivial⟩, by simp [toList], ?_⟩
    intro p hp _
    exact ⟨hp, trivial, trivial⟩
  | node ntok mn mx l r ihl ihr =>
    intro tok t2 hins hwf
    obtain ⟨hpos, hleft, hright, hwl, hwr⟩ := hwf
    simp only [Insert] at hins
    split at hins
    · exact absurd hins (by simp)
    split at hins
    · exact absurd hins (by simp)
    rename_i h1 h2
    have htok : tok.startPos < tok.endPos := lt_of_not_le h1
    split at hins
    · -- descend left
      rename_i hle
      rcases Option.map_eq_some'.mp hins with ⟨l2, hl2, rfl⟩
      obtain ⟨hwl2, hperm2, htrans⟩ := ihl tok l2 hl2 hwl
      obtain ⟨mn2, heq⟩ := withLeftChild_shape ntok mn mx l r l2
      rw [heq]
      refine ⟨⟨hpos, htrans _ hle hleft, hright, hwl2, hwr⟩, ?_, ?_⟩
      · simpa [toList] using hperm2.append_right (ntok :: r.toList)
      · intro p hp hall
        obtain ⟨hpn, hpl, hpr⟩ := hall
        exact ⟨hpn, htrans p hp hpl, hpr⟩
    split at hins
    · -- descend right
      rename_i hge
      rcases Option.map_eq_some'.mp hins with ⟨r2, hr2, rfl⟩
      obtain ⟨hwr2, hperm2, htrans⟩ := ihr tok r2 hr2 hwr
      obtain ⟨mx2, heq⟩ := withRightChild_shape ntok mn mx l r r2
      rw [heq]
      refine ⟨⟨hpos, hleft, htrans _ hge hright, hwl, hwr2⟩, ?_, ?_⟩
      · have h3 : List.Perm (toList l ++ ntok :: toList r2)
            (toList l ++ ntok :: (tok :: toList r)) :=
          ((hperm2.cons ntok).append_left (toList l))
        refine (h3.trans ?_)
        have h4 : List.Perm ((toList l ++ [ntok]) ++ tok :: toList r)
            (tok :: ((toList l ++ [ntok]) ++ toList r)) :=
          List.perm_middle
        simpa [toList] using h4
      · intro p hp hall
        obtain ⟨hpn, hpl, hpr⟩ := hall
        exact ⟨hpn, hpl, htrans p hp hpr⟩
    · exact absurd hins (by simp)

theorem insertList_spec : ∀ (toks : List Token) (t0 t : TokenTree),
    insertList t0 toks = some t → wf t0 →
    wf t ∧ List.Perm t.toList (toks ++ t0.toList) := by
  intro toks
  induction toks with
  | nil =>
    intro t0 t h hwf
    simp only [insertList] at h
    cases h
    exact ⟨hwf, List.Perm.refl _⟩
  | cons tok rest ih =>
    intro t0 t h hwf
    simp only [insertList] at h
    split at h
    · exact absurd h (by simp)
    rename_i t1 h1
    obtain ⟨hw1, hperm1, _⟩ := insert_some_spec t0 tok t1 h1 hwf
    obtain ⟨hw, hperm⟩ := ih t1 t h hw1
    exact ⟨hw, hperm.trans ((hperm1.append_left rest).trans List.perm_middle)⟩

theorem insert_none_iff : ∀ (t : TokenTree) (tok : Token), wf t →
    (t.Insert tok = none ↔
      tok.startPos ≥ tok.endPos ∨ tok.endPos > tok.lookaheadPos ∨
      ∃ a ∈ t.toList, a.startPos < tok.endPos ∧ tok.startPos < a.endPos) := by
  intro t
  induction t with
  | nil =>
    intro tok _
    simp only [Insert, toList]
    split_ifs with h1 h2
    · exact iff_of_true rfl (Or.inl h1)
    · exact iff_of_true rfl (Or.inr (Or.inl h2))
    · exact iff_of_false (by simp) (by simp [h1, h2])
  | node ntok mn mx l r ihl ihr =>
    intro tok hwf
    obtain ⟨hpos, hleft, hright, hwl, hwr⟩ := hwf
    have hl := (allT_iff _ l).mp hleft
    have hr := (allT_iff _ r).mp hright
    by_cases hv1 : tok.startPos ≥ tok.endPos
    · simp [Insert, hv1]
    by_cases hv2 : tok.endPos > tok.lookaheadPos
    · simp [Insert, hv1, hv2]
    simp only [Insert, if_neg hv1, if_neg hv2]
    have htok : tok.startPos < tok.endPos := lt_of_not_le hv1
    by_cases hle : tok.endPos ≤ ntok.startPos
    · rw [if_pos hle]
      rw [Option.map_eq_none']
      rw [ihl tok hwl]
      constructor
      · rintro (h | h | ⟨a, ha, h1, h2⟩)
        · exact Or.inl h
        · exact Or.inr (Or.inl h)
        · exact Or.inr (Or.inr ⟨a, by simp [toList, ha], h1, h2⟩)
      · rintro (h | h | ⟨a, ha, h1, h2⟩)
        · exact Or.inl h
        · exact Or.inr (Or.inl h)
        · refine Or.inr (Or.inr ⟨a, ?_, h1, h2⟩)
          simp only [toList, List.mem_append, List.mem_cons] at ha
          rcases ha with ha | rfl | ha
          · exact ha
          · exact absurd (lt_of_lt_of_le h1 hle) (lt_irrefl _)
          · exact absurd (lt_of_lt_of_le h1 (le_trans hle
              (le_trans hpos.le (hr a ha)))) (lt_irrefl _)
    by_cases hge : tok.startPos ≥ ntok.endPos
    · rw [if_neg hle, if_pos hge]
      rw [Option.map_eq_none']
      rw [ihr tok hwr]
      constructor
      · rintro (h | h | ⟨a, ha, h1, h2⟩)
        · exact Or.inl h
        · exact Or.inr (Or.inl h)
        · exact Or.inr (Or.inr ⟨a, by simp [toList, ha], h1, h2⟩)
      · rintro (h | h | ⟨a, ha, h1, h2⟩)
        · exact Or.inl h
        · exact Or.inr (Or.inl h)
        · refine Or.inr (Or.inr ⟨a, ?_, h1, h2⟩)
          simp only [toList, List.mem_append, List.mem_cons] at ha
          rcases ha with ha | rfl | ha
          · exact absurd (lt_of_lt_of_le (lt_trans
              (lt_of_lt_of_le h2 (hl a ha)) hpos) hge) (lt_irrefl _)
          · exact absurd (lt_of_le_of_lt hge h2) (lt_irrefl _)
          · exact ha
    · rw [if_neg hle, if_neg hge]
      simp only [true_iff]
      refine Or.inr (Or.inr ⟨ntok, by simp [toList], lt_of_not_le hle, lt_of_not_le hge⟩)

end TokenTree

namespace TokenIter

open TokenTree

/-- Stacks arising from IterFromPosition and Advance hold only non-nil nodes. -/
def goodStack (stack : List TokenTree) : Prop := ∀ n ∈ stack, n ≠ TokenTree.nil

theorem stackTokens_nil : stackTokens [] = [] := rfl

theorem stackTokens_cons (n : TokenTree) (s : List TokenTree) :
    stackTokens (n :: s) = remTokens n ++ stackTokens s := by
  simp [stackTokens]

theorem stackTokens_pushLeftSpine : ∀ (t : TokenTree) (s : List TokenTree),
    stackTokens (pushLeftSpine t s) = t.toList ++ stackTokens s := by
  intro t
  induction t with
  | nil => intro s; simp [pushLeftSpine, toList]
  | node ntok mn mx l r ihl ihr =>
    intro s
    simp only [pushLeftSpine, ihl, stackTokens_cons, remTokens, toList]
    simp

theorem goodStack_pushLeftSpine : ∀ (t : TokenTree) (s : List TokenTree),
    goodStack s → goodStack (pushLeftSpine t s) := by
  intro t
  induction t with
  | nil => intro s h; exact h
  | node ntok mn mx l r ihl ihr =>
    intro s h
    refine ihl _ ?_
    intro n hn
    rcases List.mem_cons.mp hn with rfl | hn
    · simp
    · exact h n hn

theorem goodStack_iterLoop : ∀ (t : TokenTree) (pos : Nat) (s : List TokenTree),
    goodStack s → goodStack (iterLoop t pos s) := by
  intro t
  induction t with
  | nil => intro pos s h; exact h
  | node ntok mn mx l r ihl ihr =>
    intro pos s h
    simp only [iterLoop]
    have hcons : goodStack (TokenTree.node ntok mn mx l r :: s) := by
      intro n hn
      rcases List.mem_cons.mp hn with rfl | hn
      · simp
      · exact h n hn
    split
    · exact ihl _ _ hcons
    split
    · exact ihr _ _ h
    · exact hcons

theorem iterLoop_spec : ∀ (t : TokenTree) (pos : Nat) (s : List TokenTree), wf t →
    stackTokens (iterLoop t pos s) =
      t.toList.filter (fun tok => pos < tok.endPos) ++ stackTokens s := by
  intro t
  induction t with
  | nil => intro pos s _; simp [iterLoop, toList]
  | node ntok mn mx l r ihl ihr =>
    intro pos s hwf
    obtain ⟨hpos, hleft, hright, hwl, hwr⟩ := hwf
    have hl := (allT_iff _ l).mp hleft
    have hr := (allT_iff _ r).mp hright
    have hrpos := wf_mem_pos r hwr
    have hlpos := wf_mem_pos l hwl
    simp only [iterLoop]
    split
    · rename_i hlt
      rw [ihl pos _ hwl, stackTokens_cons]
      have hkeepn : pos < ntok.endPos := lt_trans hlt hpos
      have hkeepr : (toList r).filter (fun tok => pos < tok.endPos) = toList r := by
        rw [List.filter_eq_self]
        intro a ha
        exact decide_eq_true (lt_trans (lt_of_lt_of_le hlt
          (le_trans hpos.le (hr a ha))) (hrpos a ha))
      simp only [toList, List.filter_append, List.filter_cons,
        decide_eq_true hkeepn, remTokens, hkeepr]
      simp
    split
    · rename_i hlt hge
      rw [ihr pos _ hwr]
      have hdropl : (toList l).filter (fun tok => pos < tok.endPos) = [] := by
        rw [List.filter_eq_nil_iff]
        intro a ha
        simp only [decide_eq_true_eq, not_lt]
        exact le_trans (hl a ha) (le_trans hpos.le hge)
      have hdropn : ¬ (pos < ntok.endPos) := not_lt.mpr hge
      simp only [toList, List.filter_append, List.filter_cons, hdropl]
      rw [if_neg (by simpa using hdropn)]
      simp
    · rename_i hlt hge
      rw [stackTokens_cons]
      have hposn : ntok.startPos ≤ pos := le_of_not_lt hlt
      have hltn : pos < ntok.endPos := lt_of_not_le (by omega)
      have hdropl : (toList l).filter (fun tok => pos < tok.endPos) = [] := by
        rw [List.filter_eq_nil_iff]
        intro a ha
        simp only [decide_eq_true_eq, not_lt]
        exact le_trans (hl a ha) hposn
      have hkeepr : (toList r).filter (fun tok => pos < tok.endPos) = toList r := by
        rw [List.filter_eq_self]
        intro a ha
        exact decide_eq_true (lt_of_lt_of_le hltn (le_trans (hr a ha) (hrpos a ha).le))
      simp only [toList, List.filter_append, List.filter_cons,
        decide_eq_true hltn, remTokens, hdropl, hkeepr]
      simp

theorem collectFuel_spec : ∀ (fuel : Nat) (stack : List TokenTree),
    goodStack stack → (stackTokens stack).length ≤ fuel →
    collectFuel fuel stack = stackTokens stack := by
  intro fuel
  induction fuel with
  | zero =>
    intro stack _ hlen
    rw [collectFuel]
    exact (List.eq_nil_of_length_eq_zero (Nat.le_zero.mp hlen)).symm
  | succ fuel ih =>
    intro stack hgood hlen
    match stack with
    | [] => rfl
    | t :: rest =>
      have ht : t ≠ TokenTree.nil := hgood t (by simp)
      match t with
      | TokenTree.nil => exact absurd rfl ht
      | TokenTree.node ntok mn mx l r =>
        have hrest : goodStack rest := fun n hn => hgood n (List.mem_cons_of_mem _ hn)
        rw [collectFuel]
        have hget : Get (TokenTree.node ntok mn mx l r :: rest) = some ntok := rfl
        rw [hget]
        have hadv : Advance (TokenTree.node ntok mn mx l r :: rest) =
            pushLeftSpine r rest := rfl
        rw [hadv]
        have hst : stackTokens (TokenTree.node ntok mn mx l r :: rest) =
            ntok :: (r.toList ++ stackTokens rest) := by
          rw [stackTokens_cons]; rfl
        rw [hst]
        have hlen2 : (stackTokens (pushLeftSpine r rest)).length ≤ fuel := by
          rw [stackTokens_pushLeftSpine, List.length_append]
          rw [hst] at hlen
          simp only [List.length_cons, List.length_append] at hlen
          omega
        rw [ih _ (goodStack_pushLeftSpine r rest hrest) hlen2,
          stackTokens_pushLeftSpine]

theorem Collect_eq_stackTokens (stack : List TokenTree) (h : goodStack stack) :
    Collect stack = stackTokens stack :=
  collectFuel_spec _ stack h le_rfl

theorem collect_iterFromPosition (t : TokenTree) (pos : Nat) (hwf : wf t) :
    Collect (t.IterFromPosition pos) =
      t.toList.filter (fun tok => pos < tok.endPos) := by
  rw [IterFromPosition, Collect_eq_stackTokens _
    (goodStack_iterLoop t pos [] (by intro n hn; cases hn)),
    iterLoop_spec t pos [] hwf, stackTokens_nil, List.append_nil]

end TokenIter

/-- The tokens of the spec's token-tree scenario: (0,3,3), (10,15,15), (5,8,8). -/
def exTokens : List Token := [⟨0, 3, 3, 0⟩, ⟨10, 15, 15, 0⟩, ⟨5, 8, 8, 0⟩]

/-- The tree Insert builds from `exTokens` (the equation is checked by rfl in
the proofs below). -/
def exTree : TokenTree :=
  TokenTree.node ⟨0, 3, 3, 0⟩ 0 15 TokenTree.nil
    (TokenTree.node ⟨10, 15, 15, 0⟩ 5 15
      (TokenTree.node ⟨5, 8, 8, 0⟩ 5 8 TokenTree.nil TokenTree.nil) TokenTree.nil)

theorem exTree_insertList :
    TokenTree.insertList TokenTree.nil exTokens = some exTree := by rfl

theorem exTree_wf : TokenTree.wf exTree :=
  (TokenTree.insertList_spec exTokens TokenTree.nil exTree exTree_insertList trivial).1

/-- Claim C1: a token tree built from the empty tree by a sequence of
successful Insert calls traverses (Collect of IterFromPosition 0) to exactly
the inserted tokens, sorted by start position and pairwise non-overlapping
(each token's end is at most the next token's start). -/
theorem claim_C1 (toks : List Token) (t : TokenTree)
    (h : TokenTree.insertList TokenTree.nil toks = some t) :
    List.Perm (TokenIter.Collect (t.IterFromPosition 0)) toks ∧
    (TokenIter.Collect (t.IterFromPosition 0)).Pairwise
      (fun a b => a.endPos ≤ b.startPos) ∧
    (TokenIter.Collect (t.IterFromPosition 0)).Pairwise
      (fun a b => a.startPos ≤ b.startPos) := by
  obtain ⟨hwf, hperm⟩ := TokenTree.insertList_spec toks TokenTree.nil t h trivial
  have hcol : TokenIter.Collect (t.IterFromPosition 0) = t.toList := by
    rw [TokenIter.collect_iterFromPosition t 0 hwf, List.filter_eq_self]
    intro a ha
    exact decide_eq_true (lt_of_le_of_lt (Nat.zero_le _)
      (TokenTree.wf_mem_pos t hwf a ha))
  rw [hcol]
  have hpair := TokenTree.wf_pairwise t hwf
  refine ⟨by simpa [TokenTree.toList] using hperm, hpair, ?_⟩
  refine hpair.imp_of_mem ?_
  intro a b ha hb hab
  exact le_trans (TokenTree.wf_mem_pos t hwf a ha).le hab

/-- Witness for claim C1 at the concrete insertion sequence of the spec's
scenario. -/
theorem claim_C1_witness :
    List.Perm (TokenIter.Collect (exTree.IterFromPosition 0)) exTokens ∧
    (TokenIter.Collect (exTree.IterFromPosition 0)).Pairwise
      (fun a b => a.endPos ≤ b.startPos) ∧
    (TokenIter.Collect (exTree.IterFromPosition 0)).Pairwise
      (fun a b => a.startPos ≤ b.startPos) :=
  claim_C1 exTokens exTree exTree_insertList

/-- Claim C2: IterFromPosition(pos) iterates, in order, exactly the tokens of
the tree whose end position is strictly greater than pos (for trees satisfying
the token-tree invariant); in particular, after inserting (0,3,3), (10,15,15),
(5,8,8) in that order, collecting from position 6 returns
[(5,8,8), (10,15,15)]. -/
theorem claim_C2 :
    (∀ (t : TokenTree) (pos : Nat), TokenTree.wf t →
      TokenIter.Collect (t.IterFromPosition pos) =
        t.toList.filter (fun tok => pos < tok.endPos)) ∧
    TokenIter.Collect (exTree.IterFromPosition 6) =
      [⟨5, 8, 8, 0⟩, ⟨10, 15, 15, 0⟩] := by
  refine ⟨fun t pos hwf => TokenIter.collect_iterFromPosition t pos hwf, ?_⟩
  rfl

/-- Claim C7: Insert panics (returns none) exactly when the token has
non-positive length, a lookahead before its end, or overlaps a token already
in the tree; on a token satisfying all three preconditions it succeeds and the
result contains the token. -/
theorem claim_C7 (t : TokenTree) (tok : Token) (hwf : TokenTree.wf t) :
    (t.Insert tok = none ↔
      tok.startPos ≥ tok.endPos ∨ tok.endPos > tok.lookaheadPos ∨
      ∃ a ∈ t.toList, a.startPos < tok.endPos ∧ tok.startPos < a.endPos) ∧
    ∀ t2, t.Insert tok = some t2 → tok ∈ t2.toList := by
  refine ⟨TokenTree.insert_none_iff t tok hwf, ?_⟩
  intro t2 h2
  obtain ⟨_, hperm, _⟩ := TokenTree.insert_some_spec t tok t2 h2 hwf
  exact hperm.mem_iff.mpr (List.mem_cons_self _ _)

/-- Witness for claim C7: the preconditions are discharged at the concrete
scenario tree and the token (16,20,20). -/
theorem claim_C7_witness :
    (exTree.Insert ⟨16, 20, 20, 0⟩ = none ↔
      16 ≥ 20 ∨ 20 > 20 ∨
      ∃ a ∈ exTree.toList, a.startPos < 20 ∧ 16 < a.endPos) ∧
    (∀ t2, exTree.Insert ⟨16, 20, 20, 0⟩ = some t2 →
      (⟨16, 20, 20, 0⟩ : Token) ∈ t2.toList) :=
  claim_C7 exTree ⟨16, 20, 20, 0⟩ exTree_wf

/-
  Heap model of the token tree, for the immutability (frame) property.
  The pure functions above cannot express "existing nodes are never
  mutated", so here the pointer structure of tokentree.go is made explicit:
  nodes live in a store, a *TokenTree pointer is an optional address, and
  the Go `&TokenTree{...}` allocation appends a fresh node.
-/

/-- A heap node: the struct fields of tokentree.go with the child pointers as
heap addresses (`none` models the nil pointer). -/
structure NodeRec where
  token : Token
  minStartPos : Nat
  maxEndPos : Nat
  leftChild : Option Nat
  rightChild : Option Nat
deriving Repr, DecidableEq

/-- The heap: the list of allocated nodes.  A node's address is its index;
allocation appends at the end and nothing is ever written in place. -/
abbrev Store := List NodeRec

/-- withLeftChild on the heap: reads the child's aggregate and allocates the
copied node (the Go method builds a fresh &TokenTree{...}). -/
def withLeftChildH (store : Store) (n : NodeRec) (childAddr : Nat) : Store × Nat :=
  let childMin := match store.get? childAddr with
    | some c => c.minStartPos
    | none => 0
  (store ++ [⟨n.token,
      if childMin < n.minStartPos then childMin else n.minStartPos,
      n.maxEndPos, some childAddr, n.rightChild⟩],
    store.length)

/-- withRightChild on the heap. -/
def withRightChildH (store : Store) (n : NodeRec) (childAddr : Nat) : Store × Nat :=
  let childMax := match store.get? childAddr with
    | some c => c.maxEndPos
    | none => 0
  (store ++ [⟨n.token, n.minStartPos,
      if childMax > n.maxEndPos then childMax else n.maxEndPos,
      n.leftChild, some childAddr⟩],
    store.length)

/-- Insert on the heap.  `none` models a panic (or a read through a dangling
pointer, impossible in a closed store with enough fuel); `some (store2, a)`
returns the extended heap and the address of the new root.  Fuel bounds the
recursion depth, which the Go code bounds by the tree height.  The validation
checks appear in each case because the Go Insert validates the token at every
recursion level. -/
def insertH : Nat → Store → Option Nat → Token → Option (Store × Nat)
  | _, store, none, token =>
    if token.startPos ≥ token.endPos then none
    else if token.endPos > token.lookaheadPos then none
    else
      some (store ++ [⟨token, token.startPos, token.endPos, none, none⟩],
        store.length)
  | 0, _, some _, _ => none
  | fuel + 1, store, some addr, token =>
    if token.startPos ≥ token.endPos then none
    else if token.endPos > token.lookaheadPos then none
    else
      match store.get? addr with
      | none => none
      | some n =>
        if token.endPos ≤ n.token.startPos then
          match insertH fuel store n.leftChild token with
          | none => none
          | some (store2, childAddr) => some (withLeftChildH store2 n childAddr)
        else if token.startPos ≥ n.token.endPos then
          match insertH fuel store n.rightChild token with
          | none => none
          | some (store2, childAddr) => some (withRightChildH store2 n childAddr)
        else none

/-- Join on the heap.  The nil cases return the other root unchanged, exactly
as the Go code returns the other pointer; otherwise a fresh spine node is
allocated after the recursive join. -/
def joinH : Nat → Store → Option Nat → Option Nat → Option (Store × Option Nat)
  | _, store, none, none => some (store, none)
  | _, store, none, some b => some (store, some b)
  | _, store, some a, none => some (store, some a)
  | 0, _, some _, some _ => none
  | fuel + 1, store, some a, some b =>
    match store.get? a, store.get? b with
    | some tn, some bn =>
      if bn.maxEndPos ≤ tn.minStartPos then
        match joinH fuel store tn.leftChild (some b) with
        | none => none
        | some (store2, c) =>
          some (store2 ++ [⟨tn.token, bn.minStartPos, tn.maxEndPos, c, tn.rightChild⟩],
            some store2.length)
      else if bn.minStartPos ≥ tn.maxEndPos then
        match joinH fuel store tn.rightChild (some b) with
        | none => none
        | some (store2, c) =>
          some (store2 ++ [⟨tn.token, tn.minStartPos, bn.maxEndPos, tn.leftChild, c⟩],
            some store2.length)
      else none
    | _, _ => none

/-- In-order traversal of a heap tree (with fuel; the Go traversal terminates
because well-formed heaps are acyclic). -/
def toListH : Nat → Store → Option Nat → List Token
  | _, _, none => []
  | 0, _, some _ => []
  | fuel + 1, store, some addr =>
    match store.get? addr with
    | none => []
    | some n =>
      toListH fuel store n.leftChild ++ n.token :: toListH fuel store n.rightChild

/-- Every pointer of every allocated node stays inside the store. -/
def closedStore (store : Store) : Prop :=
  ∀ n ∈ store, (∀ a ∈ n.leftChild, a < store.length) ∧
    (∀ a ∈ n.rightChild, a < store.length)

/-- A root reference obtained before an operation: nil or an address already
allocated. -/
def oldRoot (store : Store) : Option Nat → Prop
  | none => True
  | some a => a < store.length

theorem withLeftChildH_fst (store : Store) (n : NodeRec) (c : Nat) :
    ∃ x, withLeftChildH store n c = (store ++ [x], store.length) :=
  ⟨_, rfl⟩

theorem withRightChildH_fst (store : Store) (n : NodeRec) (c : Nat) :
    ∃ x, withRightChildH store n c = (store ++ [x], store.length) :=
  ⟨_, rfl⟩

theorem insertH_frame : ∀ (fuel : Nat) (store : Store) (root : Option Nat)
    (token : Token) (store2 : Store) (a : Nat),
    insertH fuel store root token = some (store2, a) →
    (∃ new, store2 = store ++ new) ∧ store.length ≤ a := by
  intro fuel
  induction fuel with
  | zero =>
    intro store root token store2 a h
    match root with
    | none =>
      rw [insertH] at h
      split_ifs at h
      cases h
      exact ⟨⟨_, rfl⟩, le_refl _⟩
    | some addr =>
      rw [insertH] at h
      exact absurd h (by simp)
  | succ fuel ih =>
    intro store root token store2 a h
    match root with
    | none =>
      rw [insertH] at h
      split_ifs at h
      cases h
      exact ⟨⟨_, rfl⟩, le_refl _⟩
    | some addr =>
      rw [insertH] at h
      split_ifs at h
      split at h
      · exact absurd h (by simp)
      rename_i n heq
      split at h
      · split at h
        · exact absurd h (by simp)
        · rename_i store3 childAddr hrec
          obtain ⟨⟨new, rfl⟩, _⟩ := ih store _ token store3 childAddr hrec
          obtain ⟨x, hx⟩ := withLeftChildH_fst (store ++ new) n childAddr
          rw [hx] at h
          cases h
          exact ⟨⟨new ++ [x], by simp⟩, by simp⟩
      split at h
      · split at h
        · exact absurd h (by simp)
        · rename_i store3 childAddr hrec
          obtain ⟨⟨new, rfl⟩, _⟩ := ih store _ token store3 childAddr hrec
          obtain ⟨x, hx⟩ := withRightChildH_fst (store ++ new) n childAddr
          rw [hx] at h
          cases h
          exact ⟨⟨new ++ [x], by simp⟩, by simp⟩
      · exact absurd h (by simp)

theorem joinH_frame : ∀ (fuel : Nat) (store : Store) (r1 r2 : Option Nat)
    (store2 : Store) (r : Option Nat),
    joinH fuel store r1 r2 = some (store2, r) →
    ∃ new, store2 = store ++ new := by
  intro fuel
  induction fuel with
  | zero =>
    intro store r1 r2 store2 r h
    match r1, r2 with
    | none, none => rw [joinH] at h; cases h; exact ⟨[], by simp⟩
    | none, some b => rw [joinH] at h; cases h; exact ⟨[], by simp⟩
    | some a, none => rw [joinH] at h; cases h; exact ⟨[], by simp⟩
    | some a, some b =>
      rw [joinH] at h
      exact absurd h (by simp)
  | succ fuel ih =>
    intro store r1 r2 store2 r h
    match r1, r2 with
    | none, none => rw [joinH] at h; cases h; exact ⟨[], by simp⟩
    | none, some b => rw [joinH] at h; cases h; exact ⟨[], by simp⟩
    | some a, none => rw [joinH] at h; cases h; exact ⟨[], by simp⟩
    | some a, some b =>
      rw [joinH] at h
      split at h
      · rename_i tn bn heq1 heq2
        split at h
        · split at h
          · exact absurd h (by simp)
          · rename_i store3 c hrec
            cases h
            obtain ⟨new, rfl⟩ := ih store _ (some b) store3 c hrec
            exact ⟨new ++ [⟨tn.token, bn.minStartPos, tn.maxEndPos, c, tn.rightChild⟩],
              by simp⟩
        split at h
        · split at h
          · exact absurd h (by simp)
          · rename_i store3 c hrec
            cases h
            obtain ⟨new, rfl⟩ := ih store _ (some b) store3 c hrec
            exact ⟨new ++ [⟨tn.token, tn.minStartPos, bn.maxEndPos, tn.leftChild, c⟩],
              by simp⟩
        · exact absurd h (by simp)
      · exact absurd h (by simp)

theorem toListH_frame (store : Store) (new : Store) (hclosed : closedStore store) :
    ∀ (fuel : Nat) (root : Option Nat), oldRoot store root →
      toListH fuel (store ++ new) root = toListH fuel store root := by
  intro fuel
  induction fuel with
  | zero =>
    intro root hold
    match root with
    | none => rfl
    | some a => rfl
  | succ fuel ih =>
    intro root hold
    match root with
    | none => rfl
    | some a =>
      have ha : a < store.length := hold
      rw [toListH, toListH, List.get?_append ha]
      match hget : store.get? a with
      | none => rfl
      | some n =>
        have hmem : n ∈ store := List.get?_mem hget
        obtain ⟨hleft, hright⟩ := hclosed n hmem
        dsimp only
        have holdl : oldRoot store n.leftChild := by
          match hl : n.leftChild with
          | none => trivial
          | some la => exact hleft la (by rw [hl]; rfl)
        have holdr : oldRoot store n.rightChild := by
          match hr : n.rightChild with
          | none => trivial
          | some ra => exact hright ra (by rw [hr]; rfl)
        rw [ih n.leftChild holdl, ih n.rightChild holdr]

/-- Claim C9: Insert and Join never mutate an existing node.  On the heap
model, a successful insertH or joinH only extends the store (old addresses
keep their nodes), the in-order traversal from any previously obtained
reference is unchanged, and the root insertH returns is freshly allocated. -/
theorem claim_C9 (store : Store) (hclosed : closedStore store) :
    (∀ (fuel : Nat) (root : Option Nat) (token : Token) (store2 : Store) (a : Nat),
      insertH fuel store root token = some (store2, a) →
      (∃ new, store2 = store ++ new) ∧ store.length ≤ a ∧
      ∀ (f : Nat) (r : Option Nat), oldRoot store r →
        toListH f store2 r = toListH f store r) ∧
    (∀ (fuel : Nat) (r1 r2 : Option Nat) (store2 : Store) (r : Option Nat),
      joinH fuel store r1 r2 = some (store2, r) →
      (∃ new, store2 = store ++ new) ∧
      ∀ (f : Nat) (rr : Option Nat), oldRoot store rr →
        toListH f store2 rr = toListH f store rr) := by
  constructor
  · intro fuel root token store2 a h
    obtain ⟨⟨new, rfl⟩, hfresh⟩ := insertH_frame fuel store root token store2 a h
    exact ⟨⟨new, rfl⟩, hfresh, fun f r hr => toListH_frame store new hclosed f r hr⟩
  · intro fuel r1 r2 store2 r h
    obtain ⟨new, rfl⟩ := joinH_frame fuel store r1 r2 store2 r h
    exact ⟨⟨new, rfl⟩, fun f rr hrr => toListH_frame store new hclosed f rr hrr⟩

/-- Witness for claim C9: the empty store is closed; inserting (0,1,1) into
the empty tree and joining two nil trees discharge the hypotheses. -/
theorem claim_C9_witness :
    ((∃ new, [(⟨⟨0, 1, 1, 0⟩, 0, 1, none, none⟩ : NodeRec)] = ([] : Store) ++ new) ∧
      ([] : Store).length ≤ 0 ∧
      ∀ (f : Nat) (r : Option Nat), oldRoot [] r →
        toListH f [(⟨⟨0, 1, 1, 0⟩, 0, 1, none, none⟩ : NodeRec)] r =
          toListH f [] r) ∧
    ((∃ new, ([] : Store) = [] ++ new) ∧
      ∀ (f : Nat) (rr : Option Nat), oldRoot [] rr →
        toListH f [] rr = toListH f [] rr) := by
  have hclosed : closedStore [] := by
    intro n hn
    exact absurd hn (List.not_mem_nil n)
  exact ⟨(claim_C9 [] hclosed).1 1 none ⟨0, 1, 1, 0⟩ _ 0 rfl,
    (claim_C9 [] hclosed).2 0 none none [] none rfl⟩

/-
  Locator algebra (internal/pkg/exec/locator.go).

  Modelled from the spec: the text.Tree buffer and its grapheme-cluster
  iterators are external collaborators, not among the embedded sources.  The
  buffer is modelled as a list of characters and each character as one
  grapheme cluster (exact for the ASCII buffers of the spec's scenarios; the
  locator code treats clusters abstractly through NumRunes/HasNewline).  A
  forward iterator from pos yields the characters from pos on; a backward
  iterator yields the characters before pos, nearest first.
-/

/-- text.ReadDirection. -/
inductive ReadDirection where
  | forward
  | backward
deriving DecidableEq, Repr

/-- cursorState from exec: (position, logicalOffset). -/
structure CursorState where
  position : Nat
  logicalOffset : Nat
deriving DecidableEq, Repr

/-- The buffer, one character per grapheme cluster. -/
abbrev TextBuffer := List Char

/-- Segment.HasNewline of a one-character cluster. -/
def segHasNewline (c : Char) : Bool := c = '\n'

/-- Segment.NumRunes of a one-character cluster. -/
def segNumRunes (_ : Char) : Nat := 1

/-- The forward grapheme-cluster iterator from a position. -/
def fwdSegs (text : TextBuffer) (pos : Nat) : List Char := text.drop pos

/-- The backward grapheme-cluster iterator from a position (nearest cluster
first). -/
def bwdSegs (text : TextBuffer) (pos : Nat) : List Char := (text.take pos).reverse

/-- charInLineLocator's fields. -/
structure CharInLineLocatorRec where
  direction : ReadDirection
  count : Nat
  includeEndOfLineOrFile : Bool
deriving DecidableEq, Repr

/-- NewCharInLineLocator from locator.go; `none` models the panic on a zero
count. -/
def NewCharInLineLocator (direction : ReadDirection) (count : Nat)
    (includeEndOfLineOrFile : Bool) : Option CharInLineLocatorRec :=
  if count = 0 then none
  else some ⟨direction, count, includeEndOfLineOrFile⟩

/-- relativeLineLocator's fields. -/
structure RelativeLineLocatorRec where
  direction : ReadDirection
  count : Nat
deriving DecidableEq, Repr

/-- NewRelativeLineLocator from locator.go; `none` models the panic on a zero
count. -/
def NewRelativeLineLocator (direction : ReadDirection) (count : Nat) :
    Option RelativeLineLocatorRec :=
  if count = 0 then none
  else some ⟨direction, count⟩

/-- Claim C10: NewCharInLineLocator and NewRelativeLineLocator panic exactly
when called with count = 0; for every count ≥ 1 they return a locator. -/
theorem claim_C10 (direction : ReadDirection) (count : Nat) (includeEol : Bool) :
    (NewCharInLineLocator direction count includeEol = none ↔ count = 0) ∧
    (NewRelativeLineLocator direction count = none ↔ count = 0) := by
  by_cases h : count = 0 <;>
    simp [NewCharInLineLocator, NewRelativeLineLocator, h]

/-- ontoLineLocator.findNewlineAtPos: whether the cluster at pos has a
newline, and if so the position just after that cluster. -/
def findNewlineAtPos (text : TextBuffer) (pos : Nat) : Bool × Nat :=
  match fwdSegs text pos with
  | [] => (false, 0)
  | seg :: _ =>
    if segHasNewline seg then (true, pos + segNumRunes seg) else (false, 0)

/-- The first loop of ontoLineLocator.findPrevGraphemeCluster: step backward
by k clusters, accumulating the rune offset; returns the remaining iterator
and the offset. -/
def findPrevGraphemeClusterLoop : List Char → Nat → Nat → List Char × Nat
  | segs, 0, offset => (segs, offset)
  | [], _ + 1, offset => ([], offset)
  | seg :: rest, k + 1, offset =>
    findPrevGraphemeClusterLoop rest k (offset + segNumRunes seg)

/-- ontoLineLocator.findPrevGraphemeCluster from locator.go. -/
def findPrevGraphemeCluster (text : TextBuffer) (pos : Nat) (count : Nat) : Nat :=
  match findPrevGraphemeClusterLoop (bwdSegs text pos) (count - 1) 0 with
  | ([], _) => 0
  | (seg :: _, offset) =>
    if segHasNewline seg then pos - offset
    else pos - offset - segNumRunes seg

/-- ontoLineLocator.Locate from locator.go (numChars is tree.NumChars(), the
buffer length). -/
def ontoLineLocate (text : TextBuffer) (cursor : CursorState) : CursorState :=
  if cursor.position ≥ text.length then
    { position := findPrevGraphemeCluster text text.length 1, logicalOffset := 0 }
  else
    match findNewlineAtPos text cursor.position with
    | (true, afterNewlinePos) =>
      { position := findPrevGraphemeCluster text afterNewlinePos 2,
        logicalOffset := 0 }
    | (false, _) => { position := cursor.position, logicalOffset := 0 }

/-- relativeLineLocator.findOffsetFromLineStart's loop: count clusters
backward until a newline or the start of the text. -/
def findOffsetFromLineStartLoop : List Char → Nat → Nat
  | [], offset => offset
  | seg :: rest, offset =>
    if segHasNewline seg then offset
    else findOffsetFromLineStartLoop rest (offset + 1)

/-- relativeLineLocator.findOffsetFromLineStart from locator.go. -/
def findOffsetFromLineStart (text : TextBuffer) (cursor : CursorState) : Nat :=
  findOffsetFromLineStartLoop (bwdSegs text cursor.position) 0 +
    cursor.logicalOffset

/-- relativeLineLocator.findStartOfLineAbove's loop: walk backward counting
newlines, stopping after count+1 of them; returns (offset, newlineCount). -/
def findStartOfLineAboveLoop (count : Nat) : List Char → Nat → Nat → Nat × Nat
  | [], newlineCount, offset => (offset, newlineCount)
  | seg :: rest, newlineCount, offset =>
    if segHasNewline seg then
      if newlineCount + 1 > count then (offset, newlineCount + 1)
      else findStartOfLineAboveLoop count rest (newlineCount + 1)
        (offset + segNumRunes seg)
    else findStartOfLineAboveLoop count rest newlineCount (offset + segNumRunes seg)

/-- relativeLineLocator.findStartOfLineAbove from locator.go. -/
def findStartOfLineAbove (count : Nat) (text : TextBuffer) (pos : Nat) : Nat × Nat :=
  match findStartOfLineAboveLoop count (bwdSegs text pos) 0 0 with
  | (offset, newlineCount) => (pos - offset, newlineCount)

/-- relativeLineLocator.findStartOfLineBelow's loop, with the one-cluster
lookahead iterator: the current segment is the head, the lookahead is the
head of the tail.  POSIX rule: a newline whose lookahead is EOF is treated as
EOF.  The Go loop checks newlineCount < count before each iteration. -/
def findStartOfLineBelowLoop (count : Nat) : List Char → Nat → Nat → Nat × Nat
  | [], newlineCount, offset => (offset, newlineCount)
  | seg :: rest, newlineCount, offset =>
    if newlineCount < count then
      if segHasNewline seg && rest.isEmpty then (offset, newlineCount)
      else if segHasNewline seg then
        findStartOfLineBelowLoop count rest (newlineCount + 1)
          (offset + segNumRunes seg)
      else findStartOfLineBelowLoop count rest newlineCount (offset + segNumRunes seg)
    else (offset, newlineCount)

/-- relativeLineLocator.findStartOfLineBelow from locator.go. -/
def findStartOfLineBelow (count : Nat) (text : TextBuffer) (pos : Nat) : Nat × Nat :=
  match findStartOfLineBelowLoop count (fwdSegs text pos) 0 0 with
  | (offset, newlineCount) => (pos + offset, newlineCount)

/-- relativeLineLocator.findStartOfLine from locator.go. -/
def findStartOfLine (direction : ReadDirection) (count : Nat) (text : TextBuffer)
    (pos : Nat) : Nat × Nat :=
  match direction with
  | ReadDirection.backward => findStartOfLineAbove count text pos
  | ReadDirection.forward => findStartOfLineBelow count text pos

/-- relativeLineLocator.advanceToOffset's loop: walk clusters while the
grapheme offset is below the target, tracking the previous and current rune
offsets; returns (endOfLineOrFile, prevPosOffset, posOffset, gcOffset). -/
def advanceToOffsetLoop : List Char → Nat → Nat → Nat → Nat →
    Bool × Nat × Nat × Nat
  | segs, target, prev, pos, gc =>
    if gc < target then
      match segs with
      | [] => (true, prev, pos, gc)
      | seg :: rest =>
        if segHasNewline seg then (true, prev, pos, gc)
        else advanceToOffsetLoop rest target pos (pos + segNumRunes seg) (gc + 1)
    else (false, prev, pos, gc)

/-- relativeLineLocator.advanceToOffset from locator.go. -/
def advanceToOffset (text : TextBuffer) (lineStartPos targetOffset : Nat) :
    Nat × Nat :=
  match advanceToOffsetLoop (fwdSegs text lineStartPos) targetOffset 0 0 0 with
  | (true, prev, _, gc) => (lineStartPos + prev, if gc > 0 then gc - 1 else gc)
  | (false, _, pos, gc) => (lineStartPos + pos, gc)

/-- relativeLineLocator.Locate from locator.go. -/
def relativeLineLocate (direction : ReadDirection) (count : Nat)
    (text : TextBuffer) (cursor : CursorState) : CursorState :=
  let targetOffset := findOffsetFromLineStart text cursor
  match findStartOfLine direction count text cursor.position with
  | (lineStartPos, newlineCount) =>
    if newlineCount = 0 then cursor
    else
      match advanceToOffset text lineStartPos targetOffset with
      | (newPos, actualOffset) =>
        { position := newPos, logicalOffset := targetOffset - actualOffset }

/-- The buffer of the spec's vertical-motion scenario. -/
def exText : TextBuffer :=
  ['a', 'b', 'c', 'd', 'e', 'f', '\n', 'x', 'y', '\n',
   'p', 'q', 'r', 's', 't', 'u']

/-- Counterexample to claim C4 as stated: on the scenario buffer with the
cursor at (5, 0), RelativeLine(forward, 1) does not land at position 9 with
logical offset 3 (it lands on the last grapheme of the xy line instead of on
its newline). -/
theorem claim_C4_counterexample :
    relativeLineLocate ReadDirection.forward 1 exText ⟨5, 0⟩ ≠ ⟨9, 3⟩ := by
  decide

/-- Claim C4 (amended): on the scenario buffer with the cursor at (5, 0),
RelativeLine(forward, 1) yields position 8 ('y', the last grapheme of the xy
line) with logical offset 4, and applying RelativeLine(forward, 1) to that
result yields position 15 ('u') with logical offset 0. -/
theorem claim_C4 :
    relativeLineLocate ReadDirection.forward 1 exText ⟨5, 0⟩ = ⟨8, 4⟩ ∧
    relativeLineLocate ReadDirection.forward 1 exText ⟨8, 4⟩ = ⟨15, 0⟩ := by
  constructor <;> decide

theorem aboveLoop_snd_no_newline : ∀ (segs : List Char) (count nl off : Nat),
    (∀ c ∈ segs, c ≠ '\n') →
    (findStartOfLineAboveLoop count segs nl off).2 = nl := by
  intro segs
  induction segs with
  | nil => intro count nl off _; rfl
  | cons seg rest ih =>
    intro count nl off h
    have hseg : ¬ (segHasNewline seg = true) := by
      simpa [segHasNewline] using h seg (by simp)
    rw [findStartOfLineAboveLoop, if_neg hseg]
    exact ih count nl (off + segNumRunes seg) fun c hc => h c (by simp [hc])

theorem belowLoop_snd_no_crossable : ∀ (segs : List Char) (count off : Nat),
    '\n' ∉ segs.dropLast →
    (findStartOfLineBelowLoop count segs 0 off).2 = 0 := by
  intro segs
  induction segs with
  | nil => intro count off _; rfl
  | cons seg rest ih =>
    intro count off h
    rw [findStartOfLineBelowLoop]
    by_cases hc : 0 < count
    · rw [if_pos hc]
      match rest with
      | [] =>
        by_cases hseg : segHasNewline seg
        · rw [if_pos (by simp [hseg])]
        · rw [if_neg (by simp [hseg]), if_neg hseg]
          exact ih count (off + segNumRunes seg) (by simp)
      | r1 :: rrest =>
        have h2 : seg ≠ '\n' ∧ '\n' ∉ (r1 :: rrest).dropLast := by
          constructor
          · intro heq
            exact h (by simp [heq])
          · intro hmem
            refine h ?_
            have : (seg :: r1 :: rrest).dropLast = seg :: (r1 :: rrest).dropLast := rfl
            rw [this]
            exact List.mem_cons_of_mem _ hmem
        have hseg : ¬ (segHasNewline seg = true) := by
          simpa [segHasNewline] using h2.1
        rw [if_neg (by simp [hseg]), if_neg hseg]
        exact ih count (off + segNumRunes seg) h2.2
    · rw [if_neg hc]

/-- Counterexample to claim C3 as stated: the buffer "ab\ncd" has only one
newline after position 0, yet RelativeLine(forward, 2) moves the cursor. -/
theorem claim_C3_counterexample :
    ((['a', 'b', '\n', 'c', 'd'] : TextBuffer).drop 0).count '\n' = 1 ∧
    relativeLineLocate ReadDirection.forward 2 ['a', 'b', '\n', 'c', 'd'] ⟨0, 0⟩ ≠
      ⟨0, 0⟩ := by
  decide

/-- Claim C3 (amended): RelativeLine(direction, count).Locate leaves the
cursor state unchanged (aborts) whenever the buffer contains no newlines in
the given direction from the cursor — not, as the original claim stated,
whenever it contains fewer than count of them; when moving forward, a final
newline immediately before end of file is treated as end of file and is not
crossed (it does not count as an available newline). -/
theorem claim_C3 (count : Nat) (text : TextBuffer) (cursor : CursorState) :
    ('\n' ∉ text.take cursor.position →
      relativeLineLocate ReadDirection.backward count text cursor = cursor) ∧
    ('\n' ∉ (text.drop cursor.position).dropLast →
      relativeLineLocate ReadDirection.forward count text cursor = cursor) := by
  constructor
  · intro h
    have hno : ∀ c ∈ bwdSegs text cursor.position, c ≠ '\n' := by
      intro c hc heq
      subst heq
      exact h (by simpa [bwdSegs] using hc)
    have hsnd := aboveLoop_snd_no_newline (bwdSegs text cursor.position) count 0 0 hno
    rcases hres : findStartOfLineAboveLoop count (bwdSegs text cursor.position) 0 0
      with ⟨off, nl⟩
    rw [hres] at hsnd
    simp only at hsnd
    subst hsnd
    simp [relativeLineLocate, findStartOfLine, findStartOfLineAbove, hres]
  · intro h
    have hsnd := belowLoop_snd_no_crossable (fwdSegs text cursor.position) count 0
      (by simpa [fwdSegs] using h)
    rcases hres : findStartOfLineBelowLoop count (fwdSegs text cursor.position) 0 0
      with ⟨off, nl⟩
    rw [hres] at hsnd
    simp only at hsnd
    subst hsnd
    simp [relativeLineLocate, findStartOfLine, findStartOfLineBelow, hres]

/-- Witness for claim C3 (amended) on the newline-free buffer "ab": both
direction hypotheses are discharged and the cursor stays put. -/
theorem claim_C3_witness :
    relativeLineLocate ReadDirection.backward 1 ['a', 'b'] ⟨1, 0⟩ = ⟨1, 0⟩ ∧
    relativeLineLocate ReadDirection.forward 1 ['a', 'b'] ⟨1, 0⟩ = ⟨1, 0⟩ :=
  ⟨(claim_C3 1 ['a', 'b'] ⟨1, 0⟩).1 (by decide),
   (claim_C3 1 ['a', 'b'] ⟨1, 0⟩).2 (by decide)⟩

/-- Counterexample to claim C6 as stated: on the buffer "ab" with the cursor
on 'b' and logical offset 5, OntoLine is not a no-op on the cursor state: it
resets the logical offset to zero. -/
theorem claim_C6_counterexample :
    ontoLineLocate ['a', 'b'] ⟨1, 5⟩ ≠ ⟨1, 5⟩ := by
  decide

/-- Claim C6 (amended): OntoLine.Locate always returns logical offset 0.  At
or past the end of the text it moves to the start of the last grapheme
cluster, except on an empty buffer or one ending in a newline (an empty last
line), where it stays at the end position.  On a newline grapheme it moves to
the start of the last grapheme before that newline, staying put when the
newline starts the text or follows another newline (an empty line).
Otherwise the position is unchanged (but the logical offset is still reset
to 0, not preserved as the claim stated). -/
theorem claim_C6 (text : TextBuffer) (cursor : CursorState) :
    (cursor.position ≥ text.length →
      ontoLineLocate text cursor =
        ⟨if text = [] ∨ text.getLast? = some '\n' then text.length
          else text.length - 1, 0⟩) ∧
    (∀ c, text.get? cursor.position = some c → c = '\n' →
      ontoLineLocate text cursor =
        ⟨if cursor.position = 0 ∨ text.get? (cursor.position - 1) = some '\n'
          then cursor.position else cursor.position - 1, 0⟩) ∧
    (∀ c, text.get? cursor.position = some c → c ≠ '\n' →
      ontoLineLocate text cursor = ⟨cursor.position, 0⟩) := by
  refine ⟨?_, ?_, ?_⟩
  · -- at or past the end of the text
    intro hge
    rw [ontoLineLocate, if_pos hge]
    by_cases hnil : text = []
    · subst hnil
      simp [findPrevGraphemeCluster, findPrevGraphemeClusterLoop, bwdSegs]
    · have hrev : text.reverse = text.getLast hnil :: text.dropLast.reverse := by
        conv_lhs => rw [← List.dropLast_append_getLast hnil]
        rw [List.reverse_append]
        rfl
      have hbwd : bwdSegs text text.length =
          text.getLast hnil :: text.dropLast.reverse := by
        rw [bwdSegs, List.take_length, hrev]
      have hlast : text.getLast? = some (text.getLast hnil) :=
        List.getLast?_eq_getLast text hnil
      by_cases hl : text.getLast hnil = '\n'
      · rw [if_pos (Or.inr (by rw [hlast, hl]))]
        simp [findPrevGraphemeCluster, findPrevGraphemeClusterLoop, hbwd,
          segHasNewline, hl]
      · rw [if_neg ?_]
        · simp [findPrevGraphemeCluster, findPrevGraphemeClusterLoop, hbwd,
            segHasNewline, segNumRunes, hl]
        · rintro (h | h)
          · exact hnil h
          · rw [hlast] at h
            exact hl (by injection h)
  · -- on a newline grapheme
    intro c hget hc
    subst hc
    obtain ⟨hlt, hgetc⟩ := List.get?_eq_some.mp hget
    rw [ontoLineLocate, if_neg (by omega)]
    have hdrop : fwdSegs text cursor.position =
        '\n' :: text.drop (cursor.position + 1) := by
      rw [fwdSegs, List.drop_eq_get_cons hlt, hgetc]
    have hfn : findNewlineAtPos text cursor.position =
        (true, cursor.position + 1) := by
      rw [findNewlineAtPos, hdrop]
      simp [segHasNewline, segNumRunes]
    rw [hfn]
    dsimp only
    have htake : text.take (cursor.position + 1) =
        text.take cursor.position ++ ['\n'] := by
      rw [List.take_succ]
      have : text[cursor.position]? = some '\n' := by
        rw [← List.get?_eq_getElem?]
        exact hget
      rw [this]
      rfl
    have hbwd2 : bwdSegs text (cursor.position + 1) =
        '\n' :: (text.take cursor.position).reverse := by
      rw [bwdSegs, htake, List.reverse_append]
      rfl
    by_cases hzero : cursor.position = 0
    · rw [if_pos (Or.inl hzero)]
      rw [hzero] at hbwd2 ⊢
      simp [findPrevGraphemeCluster, findPrevGraphemeClusterLoop, hbwd2,
        segHasNewline, segNumRunes]
    · -- the cluster before the newline exists
      have hpos1 : cursor.position - 1 < text.length := by omega
      have htake2 : text.take cursor.position =
          text.take (cursor.position - 1) ++
            (text.get ⟨cursor.position - 1, hpos1⟩ :: []) := by
        conv_lhs => rw [show cursor.position = (cursor.position - 1) + 1 by omega]
        rw [List.take_succ]
        have : text[cursor.position - 1]? =
            some (text.get ⟨cursor.position - 1, hpos1⟩) := by
          rw [← List.get?_eq_getElem?, List.get?_eq_some]
          exact ⟨hpos1, rfl⟩
        rw [this]
        rfl
      have hbwd3 : bwdSegs text (cursor.position + 1) =
          '\n' :: text.get ⟨cursor.position - 1, hpos1⟩ ::
            (text.take (cursor.position - 1)).reverse := by
        rw [hbwd2, htake2, List.reverse_append]
        rfl
      have hget1 : text.get? (cursor.position - 1) =
          some (text.get ⟨cursor.position - 1, hpos1⟩) := by
        rw [List.get?_eq_some]
        exact ⟨hpos1, rfl⟩
      have hloop : findPrevGraphemeClusterLoop (bwdSegs text (cursor.position + 1)) 1 0 =
          (text.get ⟨cursor.position - 1, hpos1⟩ ::
            (text.take (cursor.position - 1)).reverse, 1) := by
        rw [hbwd3]
        rfl
      have hfp : findPrevGraphemeCluster text (cursor.position + 1) 2 =
          if segHasNewline (text.get ⟨cursor.position - 1, hpos1⟩) = true
          then cursor.position else cursor.position - 1 := by
        rw [findPrevGraphemeCluster]
        rw [show (2 - 1 : Nat) = 1 from rfl, hloop]
        dsimp only
        by_cases hseg : segHasNewline (text.get ⟨cursor.position - 1, hpos1⟩) = true
        · rw [if_pos hseg, if_pos hseg]
          omega
        · rw [if_neg hseg, if_neg hseg]
          simp only [segNumRunes]
          omega
      rw [hfp]
      by_cases hnl1 : text.get ⟨cursor.position - 1, hpos1⟩ = '\n'
      · rw [if_pos (by simp only [segHasNewline, decide_eq_true_eq]; exact hnl1),
          if_pos (Or.inr (by rw [hget1, hnl1]))]
      · rw [if_neg (by simp only [segHasNewline, decide_eq_true_eq]; exact hnl1),
          if_neg ?_]
        rintro (h | h)
        · exact hzero h
        · rw [hget1] at h
          exact hnl1 (by injection h)
  · -- on an ordinary grapheme: position kept, logical offset reset
    intro c hget hc
    obtain ⟨hlt, hgetc⟩ := List.get?_eq_some.mp hget
    rw [ontoLineLocate, if_neg (by omega)]
    have hdrop : fwdSegs text cursor.position =
        c :: text.drop (cursor.position + 1) := by
      rw [fwdSegs, List.drop_eq_get_cons hlt, hgetc]
    have hfn : findNewlineAtPos text cursor.position = (false, 0) := by
      rw [findNewlineAtPos, hdrop]
      simp [segHasNewline, hc]
    rw [hfn]

/-- Witness for claim C6 (amended): one instance per branch — past the end of
"ab", on the newline of "a\n", and on the 'a' of "ab" with a pending logical
offset. -/
theorem claim_C6_witness :
    ontoLineLocate ['a', 'b'] ⟨5, 0⟩ = ⟨1, 0⟩ ∧
    ontoLineLocate ['a', '\n'] ⟨1, 0⟩ = ⟨0, 0⟩ ∧
    ontoLineLocate ['a', 'b'] ⟨0, 7⟩ = ⟨0, 0⟩ :=
  ⟨(claim_C6 ['a', 'b'] ⟨5, 0⟩).1 (by decide),
   (claim_C6 ['a', '\n'] ⟨1, 0⟩).2.1 '\n' rfl rfl,
   (claim_C6 ['a', 'b'] ⟨0, 7⟩).2.2 'a' rfl (by decide)⟩

/-
  Regular-expression parser (internal/pkg/syntax/parser/regexp.go).
  Patterns are modelled as lists of characters (the Go code indexes bytes;
  the claims concern ASCII patterns, where the two coincide).  Parse errors
  are an enumeration standing for the Go error strings; `outOfFuel` is a
  modelling artifact for the recursion bound, which ParseRegexp sets beyond
  any possible number of parse steps.
-/

/-- The Regexp variants of regexp.go. -/
inductive Regexp where
  | rempty
  | rconcat (left right : Regexp)
  | runion (left right : Regexp)
  | rstar (child : Regexp)
  | rparenExpr (child : Regexp)
  | rchar (char : Char)
  | rcharClass (negated : Bool) (chars : List Char)
  | rstartOfText
  | rendOfText
deriving DecidableEq, Repr

/-- The parse errors regexp.go builds with errors.New. -/
inductive RegexpErr where
  | unexpectedEnd
  | expectedClosingParen
  | unexpectedClosingParen
  | expectedCharsBeforeUnion
  | expectedCharsBeforeStar
  | expectedCharsBeforePlus
  | expectedCharsBeforeQuestionMark
  | invalidEscape
  | invalidClassEscape
  | unrecognizedClassEscape
  | expectedClosingBracket
  | outOfFuel
deriving DecidableEq, Repr

/-- parseEscapeSequence from regexp.go. -/
def parseEscapeSequence (s : List Char) (pos : Nat) :
    Except RegexpErr (Regexp × Nat) :=
  if h : pos + 1 < s.length then
    Except.ok (Regexp.rchar (s.get ⟨pos + 1, h⟩), pos + 2)
  else Except.error RegexpErr.invalidEscape

/-- The scanning loop of parseCharacterClass from regexp.go. -/
def parseCharacterClassLoop (s : List Char) (negated : Bool) (chars : List Char)
    (pos : Nat) : Except RegexpErr (Regexp × Nat) :=
  if h : pos < s.length then
    if s.get ⟨pos, h⟩ = ']' then
      Except.ok (Regexp.rcharClass negated chars, pos + 1)
    else if s.get ⟨pos, h⟩ = '\\' then
      if h2 : pos + 1 < s.length then
        if s.get ⟨pos + 1, h2⟩ = '[' ∨ s.get ⟨pos + 1, h2⟩ = ']' ∨
            s.get ⟨pos + 1, h2⟩ = '^' ∨ s.get ⟨pos + 1, h2⟩ = '\\' then
          parseCharacterClassLoop s negated (chars ++ [s.get ⟨pos + 1, h2⟩]) (pos + 2)
        else Except.error RegexpErr.unrecognizedClassEscape
      else Except.error RegexpErr.invalidClassEscape
    else parseCharacterClassLoop s negated (chars ++ [s.get ⟨pos, h⟩]) (pos + 1)
  else Except.error RegexpErr.expectedClosingBracket
termination_by s.length - pos
decreasing_by
  · omega
  · omega

/-- parseCharacterClass from regexp.go: consume the opening bracket, the
optional negating carat, then the class body. -/
def parseCharacterClass (s : List Char) (pos : Nat) :
    Except RegexpErr (Regexp × Nat) :=
  if s.get? (pos + 1) = some '^' then
    parseCharacterClassLoop s true [] (pos + 1 + 1)
  else parseCharacterClassLoop s false [] (pos + 1)

/-- The for-loop of parseRegexp from regexp.go.  `regexp` is the accumulator;
each iteration switches on the character at `pos`.  The recursive calls for
parenthesised groups and union arms inline the callee's leading
pos-at-end check (as parseRegexpGo performs it). -/
def parseRegexpLoop : Nat → List Char → Bool → Regexp → Nat →
    Except RegexpErr (Regexp × Nat)
  | 0, _, _, _, _ => Except.error RegexpErr.outOfFuel
  | fuel + 1, s, inParen, regexp, pos =>
    if h : pos < s.length then
      if s.get ⟨pos, h⟩ = '(' then
        match
          (if pos + 1 ≥ s.length then Except.error RegexpErr.unexpectedEnd
           else parseRegexpLoop fuel s true Regexp.rempty (pos + 1)) with
        | Except.error e => Except.error e
        | Except.ok (nextRegexp, newPos) =>
          if s.get? newPos = some ')' then
            if regexp = Regexp.rempty then
              parseRegexpLoop fuel s inParen (Regexp.rparenExpr nextRegexp)
                (newPos + 1)
            else
              parseRegexpLoop fuel s inParen
                (Regexp.rconcat regexp (Regexp.rparenExpr nextRegexp)) (newPos + 1)
          else Except.error RegexpErr.expectedClosingParen
      else if s.get ⟨pos, h⟩ = ')' then
        if inParen then Except.ok (regexp, pos)
        else Except.error RegexpErr.unexpectedClosingParen
      else if s.get ⟨pos, h⟩ = '|' then
        match
          (if pos + 1 ≥ s.length then Except.error RegexpErr.unexpectedEnd
           else parseRegexpLoop fuel s inParen Regexp.rempty (pos + 1)) with
        | Except.error e => Except.error e
        | Except.ok (nextRegexp, newPos) =>
          if regexp = Regexp.rempty then
            Except.error RegexpErr.expectedCharsBeforeUnion
          else
            parseRegexpLoop fuel s inParen (Regexp.runion regexp nextRegexp) newPos
      else if s.get ⟨pos, h⟩ = '*' then
        match regexp with
        | Regexp.rempty => Except.error RegexpErr.expectedCharsBeforeStar
        | Regexp.rconcat left right =>
          parseRegexpLoop fuel s inParen
            (Regexp.rconcat left (Regexp.rstar right)) (pos + 1)
        | other => parseRegexpLoop fuel s inParen (Regexp.rstar other) (pos + 1)
      else if s.get ⟨pos, h⟩ = '+' then
        match regexp with
        | Regexp.rempty => Except.error RegexpErr.expectedCharsBeforePlus
        | Regexp.rconcat left right =>
          parseRegexpLoop fuel s inParen
            (Regexp.rconcat left (Regexp.rconcat right (Regexp.rstar right)))
            (pos + 1)
        | other =>
          parseRegexpLoop fuel s inParen
            (Regexp.rconcat other (Regexp.rstar other)) (pos + 1)
      else if s.get ⟨pos, h⟩ = '?' then
        match regexp with
        | Regexp.rempty => Except.error RegexpErr.expectedCharsBeforeQuestionMark
        | Regexp.rconcat left right =>
          parseRegexpLoop fuel s inParen
            (Regexp.rconcat left (Regexp.runion Regexp.rempty right)) (pos + 1)
        | other =>
          parseRegexpLoop fuel s inParen
            (Regexp.runion Regexp.rempty other) (pos + 1)
      else if s.get ⟨pos, h⟩ = '\\' then
        match parseEscapeSequence s pos with
        | Except.error e => Except.error e
        | Except.ok (nextRegexp, newPos) =>
          if regexp = Regexp.rempty then
            parseRegexpLoop fuel s inParen nextRegexp newPos
          else
            parseRegexpLoop fuel s inParen (Regexp.rconcat regexp nextRegexp) newPos
      else if s.get ⟨pos, h⟩ = '[' then
        match parseCharacterClass s pos with
        | Except.error e => Except.error e
        | Except.ok (nextRegexp, newPos) =>
          if regexp = Regexp.rempty then
            parseRegexpLoop fuel s inParen nextRegexp newPos
          else
            parseRegexpLoop fuel s inParen (Regexp.rconcat regexp nextRegexp) newPos
      else if s.get ⟨pos, h⟩ = '.' then
        if regexp = Regexp.rempty then
          parseRegexpLoop fuel s inParen (Regexp.rcharClass true []) (pos + 1)
        else
          parseRegexpLoop fuel s inParen
            (Regexp.rconcat regexp (Regexp.rcharClass true [])) (pos + 1)
      else if s.get ⟨pos, h⟩ = '^' then
        if regexp = Regexp.rempty then
          parseRegexpLoop fuel s inParen Regexp.rstartOfText (pos + 1)
        else
          parseRegexpLoop fuel s inParen
            (Regexp.rconcat regexp Regexp.rstartOfText) (pos + 1)
      else if s.get ⟨pos, h⟩ = '$' then
        if regexp = Regexp.rempty then
          parseRegexpLoop fuel s inParen Regexp.rendOfText (pos + 1)
        else
          parseRegexpLoop fuel s inParen
            (Regexp.rconcat regexp Regexp.rendOfText) (pos + 1)
      else
        if regexp = Regexp.rempty then
          parseRegexpLoop fuel s inParen (Regexp.rchar (s.get ⟨pos, h⟩)) (pos + 1)
        else
          parseRegexpLoop fuel s inParen
            (Regexp.rconcat regexp (Regexp.rchar (s.get ⟨pos, h⟩))) (pos + 1)
    else Except.ok (regexp, pos)

/-- parseRegexp from regexp.go: error when pos is at or past the end, else
run the loop. -/
def parseRegexpGo (fuel : Nat) (s : List Char) (pos : Nat) (inParen : Bool) :
    Except RegexpErr (Regexp × Nat) :=
  if pos ≥ s.length then Except.error RegexpErr.unexpectedEnd
  else parseRegexpLoop fuel s inParen Regexp.rempty pos

/-- ParseRegexp from regexp.go.  The fuel strictly exceeds the number of
parse steps possible on the input (positions strictly increase and the
recursion nesting is bounded by the length). -/
def ParseRegexp (s : List Char) : Except RegexpErr Regexp :=
  (parseRegexpGo ((s.length + 1) * (s.length + 1) + 1) s 0 false).map fun r => r.1

/-- Claim C8: ParseRegexp returns an error result (never a Regexp, never a
panic) on each malformed-pattern class: unexpected end (empty pattern, a
pattern ending in an unescaped bare union, a bare escape), unbalanced
parentheses, an unterminated character class, and a quantifier with no
preceding atom. -/
theorem claim_C8 :
    ParseRegexp [] = Except.error RegexpErr.unexpectedEnd ∧
    ParseRegexp ['a', '|'] = Except.error RegexpErr.unexpectedEnd ∧
    ParseRegexp ['a', '\\'] = Except.error RegexpErr.invalidEscape ∧
    ParseRegexp ['(', 'a'] = Except.error RegexpErr.expectedClosingParen ∧
    ParseRegexp ['a', ')'] = Except.error RegexpErr.unexpectedClosingParen ∧
    ParseRegexp ['[', 'a', 'b'] = Except.error RegexpErr.expectedClosingBracket ∧
    (∀ s, ParseRegexp ('*' :: s) = Except.error RegexpErr.expectedCharsBeforeStar) ∧
    (∀ s, ParseRegexp ('+' :: s) = Except.error RegexpErr.expectedCharsBeforePlus) ∧
    (∀ s, ParseRegexp ('?' :: s) =
      Except.error RegexpErr.expectedCharsBeforeQuestionMark) ∧
    ParseRegexp ['a', '(', '*', ')'] =
      Except.error RegexpErr.expectedCharsBeforeStar := by
  refine ⟨by rfl, by rfl, by rfl, by rfl, by rfl,
    by simp [ParseRegexp, parseRegexpGo, parseRegexpLoop, parseCharacterClass,
      parseCharacterClassLoop, Except.map],
    ?_, ?_, ?_, by rfl⟩ <;>
  · intro s
    simp [ParseRegexp, parseRegexpGo, parseRegexpLoop, Except.map]

/-
  Input modes (input/mode.go).

  Modelled from the spec: the vm package (vm.Runtime, vm.Event, the capture
  records) and the Command table are external to the embedded sources.  The
  runtime's step result is therefore an argument of ProcessKeyEvent: a
  VmResult with accepted/captures/reset fields.  The spec's left-bias
  ordering ("If multiple captures are live, the lowest-id wins") is taken as
  the hypothesis that the command captures the runtime reports are sorted by
  capture id.
-/

/-- A capture reported by the VM: (id, start index, end index) over the
event buffer. -/
structure VmCapture where
  id : Nat
  startIdx : Nat
  endIdx : Nat
deriving DecidableEq, Repr

/-- The result of stepping the VM with one event. -/
structure VmResult where
  accepted : Bool
  captures : List VmCapture
  reset : Bool
deriving DecidableEq, Repr

/-- Modelled from the spec: capturesToCommandParams builds command parameters
from the capture slices of the event buffer. -/
def capturesToCommandParams {Event : Type} (captures : List VmCapture)
    (eventBuffer : List Event) : List (Nat × List Event) :=
  captures.map fun c =>
    (c.id, (eventBuffer.drop c.startIdx).take (c.endIdx - c.startIdx))

/-- A command of a mode's command table; only its action builder matters for
ProcessKeyEvent's accept path. -/
structure Command (Config Event Action : Type) where
  buildAction : Config → List (Nat × List Event) → Action

/-- The capture loop of vmMode.ProcessKeyEvent: the first capture whose id
indexes the command list determines the action (then the Go loop breaks). -/
def pickCommandAction {Event Action Config : Type}
    (commands : List (Command Config Event Action)) (config : Config)
    (eventBuffer : List Event) (allCaptures : List VmCapture)
    (emptyAction : Action) : List VmCapture → Action
  | [] => emptyAction
  | capture :: rest =>
    match commands.get? capture.id with
    | some command =>
      command.buildAction config (capturesToCommandParams allCaptures eventBuffer)
    | none =>
      pickCommandAction commands config eventBuffer allCaptures emptyAction rest

/-- vmMode.ProcessKeyEvent from mode.go, with the runtime step result as an
argument: append the event to the buffer; on accept, run the capture loop;
on reset, clear the buffer.  Returns the action and the new event buffer. -/
def processKeyEvent {Event Action Config : Type}
    (commands : List (Command Config Event Action)) (emptyAction : Action)
    (eventBuffer : List Event) (event : Event) (config : Config)
    (result : VmResult) : Action × List Event :=
  let eventBuffer2 := eventBuffer ++ [event]
  let action :=
    if result.accepted then
      pickCommandAction commands config eventBuffer2 result.captures emptyAction
        result.captures
    else emptyAction
  (action, if result.reset then [] else eventBuffer2)

theorem pickCommandAction_spec {Event Action Config : Type}
    (commands : List (Command Config Event Action)) (config : Config)
    (eventBuffer : List Event) (allCaptures : List VmCapture)
    (emptyAction : Action) :
    ∀ caps : List VmCapture,
    (∃ c ∈ caps, c.id < commands.length) →
    (caps.filter (fun c => c.id < commands.length)).Pairwise
      (fun a b => a.id ≤ b.id) →
    ∃ c command, c ∈ caps ∧ commands.get? c.id = some command ∧
      (∀ c2 ∈ caps, c2.id < commands.length → c.id ≤ c2.id) ∧
      pickCommandAction commands config eventBuffer allCaptures emptyAction caps =
        command.buildAction config
          (capturesToCommandParams allCaptures eventBuffer) := by
  intro caps
  induction caps with
  | nil =>
    rintro ⟨c, hc, _⟩ _
    exact absurd hc (List.not_mem_nil c)
  | cons cap rest ih =>
    intro hsome hsorted
    rw [pickCommandAction]
    match hget : commands.get? cap.id with
    | some command =>
      have hlt : cap.id < commands.length := by
        obtain ⟨_, _⟩ := List.get?_eq_some.mp hget
        assumption
      refine ⟨cap, command, List.mem_cons_self _ _, hget, ?_, rfl⟩
      intro c2 hc2 hc2lt
      rcases List.mem_cons.mp hc2 with rfl | hc2
      · exact le_refl _
      · have hfil : (cap :: rest).filter (fun c => c.id < commands.length) =
            cap :: rest.filter (fun c => c.id < commands.length) := by
          rw [List.filter_cons, if_pos (by simpa using hlt)]
        rw [hfil] at hsorted
        exact (List.pairwise_cons.mp hsorted).1 c2
          (List.mem_filter.mpr ⟨hc2, by simpa using hc2lt⟩)
    | none =>
      have hge : commands.length ≤ cap.id := List.get?_eq_none.mp hget
      have hfil : (cap :: rest).filter (fun c => c.id < commands.length) =
          rest.filter (fun c => c.id < commands.length) := by
        rw [List.filter_cons, if_neg (by simpa using not_lt.mpr hge)]
      obtain ⟨c0, hc0, hc0lt⟩ := hsome
      have hc0rest : c0 ∈ rest := by
        rcases List.mem_cons.mp hc0 with rfl | h
        · exact absurd hc0lt (not_lt.mpr hge)
        · exact h
      obtain ⟨c, command, hcmem, hcget, hmin, heq⟩ :=
        ih ⟨c0, hc0rest, hc0lt⟩ (by rw [hfil] at hsorted; exact hsorted)
      refine ⟨c, command, List.mem_cons_of_mem _ hcmem, hcget, ?_, heq⟩
      intro c2 hc2 hc2lt
      rcases List.mem_cons.mp hc2 with rfl | hc2
      · have : c.id < commands.length := by
          obtain ⟨_, _⟩ := List.get?_eq_some.mp hcget
          assumption
        omega
      · exact hmin c2 hc2 hc2lt

/-- Claim C5: whenever the VM accepts after a key event in a VM-backed mode
and the accepting step reports a capture of some command, ProcessKeyEvent
returns the action built by the command whose capture id is lowest among the
reported command captures (the command listed earliest in the mode's command
list), with parameters derived from the capture slices of the event buffer.
The sortedness hypothesis is the spec's left-bias guarantee on the order of
reported captures. -/
theorem claim_C5 {Event Action Config : Type}
    (commands : List (Command Config Event Action)) (emptyAction : Action)
    (eventBuffer : List Event) (event : Event) (config : Config)
    (result : VmResult)
    (haccept : result.accepted = true)
    (hsorted : (result.captures.filter (fun c => c.id < commands.length)).Pairwise
      (fun a b => a.id ≤ b.id))
    (hsome : ∃ c ∈ result.captures, c.id < commands.length) :
    ∃ c command, c ∈ result.captures ∧ commands.get? c.id = some command ∧
      (∀ c2 ∈ result.captures, c2.id < commands.length → c.id ≤ c2.id) ∧
      (processKeyEvent commands emptyAction eventBuffer event config result).1 =
        command.buildAction config
          (capturesToCommandParams result.captures (eventBuffer ++ [event])) := by
  obtain ⟨c, command, hcmem, hcget, hmin, heq⟩ :=
    pickCommandAction_spec commands config (eventBuffer ++ [event])
      result.captures emptyAction result.captures hsome hsorted
  refine ⟨c, command, hcmem, hcget, hmin, ?_⟩
  simp only [processKeyEvent, haccept, if_pos]
  exact heq

/-- Witness for claim C5 at a one-command mode accepting a single capture. -/
theorem claim_C5_witness :
    ∃ (c : VmCapture) (command : Command Nat Nat Nat),
      c ∈ [(⟨0, 0, 1⟩ : VmCapture)] ∧
      ([(⟨fun _ _ => 7⟩ : Command Nat Nat Nat)]).get? c.id = some command ∧
      (∀ c2 ∈ [(⟨0, 0, 1⟩ : VmCapture)],
        c2.id < ([(⟨fun _ _ => 7⟩ : Command Nat Nat Nat)]).length → c.id ≤ c2.id) ∧
      (processKeyEvent [(⟨fun _ _ => 7⟩ : Command Nat Nat Nat)] 0 [] 5 0
        ⟨true, [⟨0, 0, 1⟩], true⟩).1 =
        command.buildAction 0
          (capturesToCommandParams [(⟨0, 0, 1⟩ : VmCapture)] ([] ++ [5])) :=
  claim_C5 [⟨fun _ _ => 7⟩] 0 [] 5 0 ⟨true, [⟨0, 0, 1⟩], true⟩ rfl
    (by simp) ⟨⟨0, 0, 1⟩, by simp, by simp⟩

end Aretext
